import Mathlib

/-!
Verification of the cursor-anchored path-extraction core of OpenContextPath
(`open_context_path.py`), shallowly embedded over `List Char` strings.

Conventions of the embedding:
* Python strings are `List Char`; `text[a:b]` is `(text.drop a).take (b - a)`.
* The filesystem-existence oracle `os.path.exists` is an abstract parameter
  `fs : List Char → Bool` (the only I/O the code performs).
* The module-level `platform` is fixed to the non-Windows case for the path
  predicates (`os.path` is `posixpath`; the two Windows-only guards in
  `search_path` are dead on that platform).  Both tokenizer grammars
  (`file_parts_unix`, `file_parts_win`) are modelled, as the tests exercise both.
* Python's `\w` character class is modelled on its ASCII fragment
  (letters, digits, underscore), which is what the repository's tests exercise.
* `log.debug` calls are side-effect free and are omitted.
-/

namespace OCP

/-- Models Python's `\w` word-character class (ASCII fragment). -/
def isWordChar (c : Char) : Bool := c.isAlpha || c.isDigit || c == '_'

/-- Separator class of the Unix grammar: the `/*` in `file_parts_unix`. -/
def isSepUnix (c : Char) : Bool := c == '/'

/-- Separator class of the drive-letter grammar: the `[/\\]*` in `file_parts_win`. -/
def isSepWin (c : Char) : Bool := c == '/' || c == '\\'

/-- The two platform-selected fragment grammars of the tokenizer
(`file_parts_unix` and `file_parts_win` in the source). -/
inductive Grammar : Type
| unix : Grammar
| win : Grammar
deriving DecidableEq

/-- Word-or-dot-segment alternative `(\w+|\.\.?)sep*` shared by both grammars,
followed by the single-character fallback `\W`; `sep` is the grammar's
separator class.  Returns (fragment, rest of the text). -/
def wordDotFrag (sep : Char → Bool) (c : Char) (cs : List Char) : List Char × List Char :=
  if isWordChar c then
    let r := cs.dropWhile isWordChar
    (c :: cs.takeWhile isWordChar ++ r.takeWhile sep, r.dropWhile sep)
  else if c == '.' then
    match cs with
    | c1 :: cs' =>
      if c1 == '.' then (c :: c1 :: cs'.takeWhile sep, cs'.dropWhile sep)
      else (c :: cs.takeWhile sep, cs.dropWhile sep)
    | [] => (c :: cs.takeWhile sep, cs.dropWhile sep)
  else ([c], cs)

/-- One leftmost match of the `file_parts` regex at the head of `c :: cs`:
the Unix grammar is `((\w+|\.\.?)/*|\W)`, the drive-letter grammar is
`([A-Z]:[/\\]+|(\w+|\.\.?)[/\\]*|\W)` with `re.IGNORECASE`.
Alternatives are tried left to right, runs are maximal. -/
def nextPart (g : Grammar) (c : Char) (cs : List Char) : List Char × List Char :=
  match g with
  | Grammar.unix => wordDotFrag isSepUnix c cs
  | Grammar.win =>
    match cs with
    | c1 :: c2 :: cs' =>
      if c.isAlpha && c1 == ':' && isSepWin c2 then
        (c :: c1 :: c2 :: cs'.takeWhile isSepWin, cs'.dropWhile isSepWin)
      else wordDotFrag isSepWin c cs
    | _ => wordDotFrag isSepWin c cs

/-- Fuel-indexed tokenizer loop; every `nextPart` consumes at least one
character, so fuel `text.length` always suffices (`tokenizeF_flatten`). -/
def tokenizeF (g : Grammar) : Nat → List Char → List (List Char)
  | 0, _ => []
  | _, [] => []
  | fuel + 1, c :: cs =>
    let pr := nextPart g c cs
    pr.1 :: tokenizeF g fuel pr.2

/-- Models `re.finditer(self.file_parts, text)`: the ordered list of
non-overlapping fragments of `text` under grammar `g`. -/
def file_parts (g : Grammar) (text : List Char) : List (List Char) :=
  tokenizeF g text.length text

/-- Models the partition loop of `extract_path`: each fragment goes to
`before` when its start offset (`match.start()`, the running `pos`) is
`≤ cur`, otherwise to `after`. -/
def splitParts (cur : Nat) : Nat → List (List Char) → List (List Char) × List (List Char)
  | _, [] => ([], [])
  | pos, p :: ps =>
    let r := splitParts cur (pos + p.length) ps
    if pos ≤ cur then (p :: r.1, r.2) else (r.1, p :: r.2)

/-- Models `posixpath.isabs`: a path is absolute iff it starts with `/`. -/
def isabs (p : List Char) : Bool :=
  match p with
  | '/' :: _ => true
  | _ => false

/-- Models `posixpath.join(d, p)` for a single component: if `p` is absolute
it wins; else it is appended to `d`, inserting a `/` unless `d` is empty or
already ends in `/`. -/
def joinPath (d p : List Char) : List Char :=
  if isabs p then p
  else if d = [] ∨ d.getLast? = some '/' then d ++ p
  else d ++ '/' :: p

/-- Models `search_path(self, path, dirs)` on a non-Windows platform:
reject a bare `.` or `..`; an absolute path resolves to itself when it
exists; a relative path is joined with each directory in order and the
first existing join wins.  (The UNC and trailing-space guards are inside
`if platform == "windows"` and are dead here.) -/
def search_path (fs : List Char → Bool) (path : List Char) (dirs : List (List Char)) :
    Option (List Char) :=
  if path = ['.'] ∨ path = ['.', '.'] then none
  else if isabs path then (if fs path then some path else none)
  else dirs.findSome? (fun d => if fs (joinPath d path) then some (joinPath d path) else none)

/-- Models the inner growth loop of `extract_path`: starting from the anchor
fragment, successively append each following fragment to `newPath`, re-test
existence after each append, and retain the last successfully-resolved
concatenation as `existing`. -/
def grow (fs : List Char → Bool) (dirs : List (List Char)) :
    List Char → List Char → List (List Char) → List Char
  | _, existing, [] => existing
  | newPath, existing, p :: rest =>
    let np := newPath ++ p
    if (search_path fs np dirs).isSome then grow fs dirs np np rest
    else grow fs dirs np existing rest

/-- State of the reverse anchor scan of `extract_path`: the current best
`path` (empty = none found yet) and its span `(b, e)`. -/
structure ScanState : Type where
  path : List Char
  b : Nat
  e : Nat
deriving DecidableEq

/-- One iteration of the reverse anchor scan of `extract_path`, at anchor
index `i` into `before`: try the anchor (bootstrap when no path was found
yet, else only if the fragment alone resolves), grow the candidate, re-test
it if the standalone test was skipped, check that it covers the cursor, and
keep it only when strictly longer than the current best. -/
def anchor_step (fs : List Char → Bool) (dirs : List (List Char)) (cur : Nat)
    (before after : List (List Char)) (st : ScanState) (i : Nat) : ScanState :=
  let part := before.getD i []
  if st.path = [] ∨ (search_path fs part dirs).isSome then
    let existing := grow fs dirs part part (before.drop (i + 1) ++ after)
    if st.path ≠ [] ∨ (search_path fs existing dirs).isSome then
      let lenBefore := ((before.take i).flatten).length
      if cur ≤ lenBefore + existing.length then
        if st.path.length < existing.length then
          ⟨existing, lenBefore, lenBefore + existing.length⟩
        else st
      else st
    else st
  else st

/-- The reverse anchor scan: fold `anchor_step` over a list of anchor
indices (in `extract_path` the list is `reversed(range(len(before)))`). -/
def scan (fs : List Char → Bool) (dirs : List (List Char)) (cur : Nat)
    (before after : List (List Char)) : List Nat → ScanState → ScanState
  | [], st => st
  | i :: rest, st =>
    scan fs dirs cur before after rest (anchor_step fs dirs cur before after st i)

/-- Models `extract_path(self, text, cur, dirs)` (the body, without the
`lru_cache` wrapper, which is modelled separately by `lruGet`): tokenize,
partition at the cursor, run the reverse anchor scan, and emit either
`(None, None)` or `(search_path(path, dirs), (begin, end))`. -/
def extract_path (g : Grammar) (fs : List Char → Bool) (text : List Char) (cur : Nat)
    (dirs : List (List Char)) : Option (List Char) × Option (Nat × Nat) :=
  let parts := file_parts g text
  let ba := splitParts cur 0 parts
  let st := scan fs dirs cur ba.1 ba.2 ((List.range ba.1.length).reverse) ⟨[], 0, 0⟩
  if st.path = [] then (none, none)
  else (search_path fs st.path dirs, some (st.b, st.e))

/-- Result mapping of one metadata pattern: named capture groups to their
optional values (a named group that did not participate in the match maps
to `none`, mirroring `match.groupdict()`). -/
abbrev GroupDict : Type := List (List Char × Option (List Char))

/-- Models `match_patterns(self, text)`: try each configured pattern in
order with `re.match` (abstracted as a function from the trailing text to
an optional `groupdict`), return the first match's group dictionary, or the
empty mapping when nothing matches or no patterns are configured. -/
def match_patterns (patterns : List (List Char → Option GroupDict)) (text : List Char) :
    GroupDict :=
  match patterns with
  | [] => []
  | p :: ps =>
    match p text with
    | some gd => gd
    | none => match_patterns ps text

/-- Modelled from the spec: the example metadata pattern capturing `line`
and `col` from trailing text of the form `:42:10` or `:42` (the configured
pattern rules themselves live in the settings files, outside the core
source), equivalent to the regex `:(?P<line>\d+)(:(?P<col>\d+))?`. -/
def lineColPattern (text : List Char) : Option GroupDict :=
  match text with
  | ':' :: rest =>
    let d := rest.takeWhile Char.isDigit
    if d = [] then none
    else
      match rest.dropWhile Char.isDigit with
      | ':' :: rest2 =>
        let d2 := rest2.takeWhile Char.isDigit
        if d2 = [] then some [("line".toList, some d), ("col".toList, none)]
        else some [("line".toList, some d), ("col".toList, some d2)]
      | _ => some [("line".toList, some d), ("col".toList, none)]
  | _ => none

/-- First value stored under key `k` in an association list (the dictionary
inside `functools.lru_cache`). -/
def assocFind {α β : Type} [DecidableEq α] (k : α) : List (α × β) → Option β
  | [] => none
  | kv :: rest => if kv.1 = k then some kv.2 else assocFind k rest

/-- Removal of the first entry stored under key `k` from an association list. -/
def assocErase {α β : Type} [DecidableEq α] (k : α) : List (α × β) → List (α × β)
  | [] => []
  | kv :: rest => if kv.1 = k then rest else kv :: assocErase k rest

/-- Models one call through the `functools.lru_cache()` wrapper (default
`maxsize`, i.e. capacity `cap = 128`) around a pure function `f`: the cache
is a most-recently-used-first association list; a hit moves the entry to
the front, a miss computes `f k`, inserts it at the front and drops the
least-recently-used entry when the capacity is exceeded. -/
def lruGet {α β : Type} [DecidableEq α] (f : α → β) (cap : Nat) (c : List (α × β)) (k : α) :
    β × List (α × β) :=
  match assocFind k c with
  | some v => (v, (k, v) :: assocErase k c)
  | none => (f k, ((k, f k) :: c).take cap)

/-- Cache state after a sequence of memoized calls. -/
def lruRun {α β : Type} [DecidableEq α] (f : α → β) (cap : Nat)
    (ks : List α) (c : List (α × β)) : List (α × β) :=
  ks.foldl (fun c k => (lruGet f cap c k).2) c

/-- Every cached value agrees with the memoized function. -/
def cacheConsistent {α β : Type} (f : α → β) (c : List (α × β)) : Prop :=
  ∀ kv ∈ c, kv.2 = f kv.1

/-- The memoized `extract_path` as a function of its cache key, the triple
`(text, cur, dirs)` (the `self` argument is fixed: one resolver instance). -/
def extractKeyed (g : Grammar) (fs : List Char → Bool) :
    List Char × Nat × List (List Char) → Option (List Char) × Option (Nat × Nat) :=
  fun k => extract_path g fs k.1 k.2.1 k.2.2

/-- Scan state computed by `extract_path` before emitting its result
(named so that theorems can refer to it). -/
def scanOf (g : Grammar) (fs : List Char → Bool) (text : List Char) (cur : Nat)
    (dirs : List (List Char)) : ScanState :=
  scan fs dirs cur (splitParts cur 0 (file_parts g text)).1
    (splitParts cur 0 (file_parts g text)).2
    ((List.range (splitParts cur 0 (file_parts g text)).1.length).reverse) ⟨[], 0, 0⟩

/-- Concrete one-file filesystem used by witnesses: only `/a` exists. -/
def fsSlashA : List Char → Bool := fun p => p = ['/', 'a']

/-- Concrete filesystem for the greedy-longest counterexample: exactly
`/d/txt` and `/d/file1.txt` exist. -/
def fsTwoFiles : List Char → Bool :=
  fun p => p = "/d/txt".toList || p = "/d/file1.txt".toList

/-- Concrete filesystem for the resolution-precedence witness: `file2.txt`
exists under both `/root` and `/root/dir2/sub`. -/
def fsPrecedence : List Char → Bool :=
  fun p => p = "/root/file2.txt".toList || p = "/root/dir2/sub/file2.txt".toList

/-- Empty filesystem: no path exists. -/
def fsEmpty : List Char → Bool := fun _ => false

/-- Invariant carried by the reverse anchor scan of `extract_path`: the
state is either still the initial one, or records a candidate that is a
fragment-aligned substring of `text` at span `(b, e)` covering the cursor
and verified to exist by `search_path`. -/
def Inv (fs : List Char → Bool) (dirs : List (List Char)) (text : List Char) (cur : Nat)
    (st : ScanState) : Prop :=
  st = ⟨[], 0, 0⟩ ∨
    (st.path ≠ [] ∧ st.b ≤ cur ∧ cur ≤ st.e ∧ st.e = st.b + st.path.length ∧
      (∃ t, text.drop st.b = st.path ++ t) ∧ st.e ≤ text.length ∧
      (search_path fs st.path dirs).isSome)

end OCP

namespace OCP

/-! Tokenizer lemmas: fragments are non-empty and tile the text. -/

theorem wordDotFrag_append (sep : Char → Bool) (c : Char) (cs : List Char) :
    (wordDotFrag sep c cs).1 ++ (wordDotFrag sep c cs).2 = c :: cs := by
  unfold wordDotFrag
  by_cases hw : isWordChar c
  · simp [hw, List.append_assoc, List.takeWhile_append_dropWhile]
  · by_cases hd : c == '.'
    · simp only [hw, hd, Bool.false_eq_true, if_false, if_true]
      cases cs with
      | nil => simp
      | cons c1 cs' =>
        by_cases h1 : c1 == '.'
        · simp [h1, List.takeWhile_append_dropWhile]
        · simp [h1, List.takeWhile_append_dropWhile]
    · simp [hw, hd]

theorem wordDotFrag_ne_nil (sep : Char → Bool) (c : Char) (cs : List Char) :
    (wordDotFrag sep c cs).1 ≠ [] := by
  unfold wordDotFrag
  by_cases hw : isWordChar c
  · simp [hw]
  · by_cases hd : c == '.'
    · simp only [hw, hd, Bool.false_eq_true, if_false, if_true]
      cases cs with
      | nil => simp
      | cons c1 cs' =>
        by_cases h1 : c1 == '.'
        · simp [h1]
        · simp [h1]
    · simp [hw, hd]

theorem nextPart_append (g : Grammar) (c : Char) (cs : List Char) :
    (nextPart g c cs).1 ++ (nextPart g c cs).2 = c :: cs := by
  cases g with
  | unix => exact wordDotFrag_append isSepUnix c cs
  | win =>
    cases cs with
    | nil => exact wordDotFrag_append isSepWin c []
    | cons c1 cs1 =>
      cases cs1 with
      | nil => exact wordDotFrag_append isSepWin c [c1]
      | cons c2 cs' =>
        simp only [nextPart]
        by_cases hcond : (c.isAlpha && c1 == ':' && isSepWin c2) = true
        · simp [hcond, List.takeWhile_append_dropWhile]
        · simp only [hcond, Bool.false_eq_true, if_false]
          exact wordDotFrag_append isSepWin c (c1 :: c2 :: cs')

theorem nextPart_ne_nil (g : Grammar) (c : Char) (cs : List Char) :
    (nextPart g c cs).1 ≠ [] := by
  cases g with
  | unix => exact wordDotFrag_ne_nil isSepUnix c cs
  | win =>
    cases cs with
    | nil => exact wordDotFrag_ne_nil isSepWin c []
    | cons c1 cs1 =>
      cases cs1 with
      | nil => exact wordDotFrag_ne_nil isSepWin c [c1]
      | cons c2 cs' =>
        simp only [nextPart]
        by_cases hcond : (c.isAlpha && c1 == ':' && isSepWin c2) = true
        · simp [hcond]
        · simp only [hcond, Bool.false_eq_true, if_false]
          exact wordDotFrag_ne_nil isSepWin c (c1 :: c2 :: cs')

theorem nextPart_rest_le (g : Grammar) (c : Char) (cs : List Char) :
    (nextPart g c cs).2.length ≤ cs.length := by
  have h := congrArg List.length (nextPart_append g c cs)
  rw [List.length_append, List.length_cons] at h
  have h1 : 1 ≤ (nextPart g c cs).1.length :=
    List.length_pos.2 (nextPart_ne_nil g c cs)
  omega

theorem tokenizeF_flatten (g : Grammar) :
    ∀ (fuel : Nat) (cs : List Char), cs.length ≤ fuel →
      (tokenizeF g fuel cs).flatten = cs := by
  intro fuel
  induction fuel with
  | zero =>
    intro cs h
    have : cs = [] := List.length_eq_zero.1 (Nat.le_zero.1 h)
    simp [this, tokenizeF]
  | succ n ih =>
    intro cs h
    cases cs with
    | nil => simp [tokenizeF]
    | cons c cs' =>
      simp only [tokenizeF, List.flatten_cons]
      rw [ih _ (by have := nextPart_rest_le g c cs'; simp at h; omega)]
      exact nextPart_append g c cs'

theorem file_parts_flatten (g : Grammar) (text : List Char) :
    (file_parts g text).flatten = text :=
  tokenizeF_flatten g text.length text le_rfl

theorem tokenizeF_ne_nil (g : Grammar) :
    ∀ (fuel : Nat) (cs : List Char), ∀ p ∈ tokenizeF g fuel cs, p ≠ [] := by
  intro fuel
  induction fuel with
  | zero => intro cs p hp; simp [tokenizeF] at hp
  | succ n ih =>
    intro cs p hp
    cases cs with
    | nil => simp [tokenizeF] at hp
    | cons c cs' =>
      simp only [tokenizeF, List.mem_cons] at hp
      rcases hp with rfl | hp
      · exact nextPart_ne_nil g c cs'
      · exact ih _ p hp

theorem file_parts_ne_nil (g : Grammar) (text : List Char) :
    ∀ p ∈ file_parts g text, p ≠ [] :=
  tokenizeF_ne_nil g text.length text

/-! Partition lemmas: `before` is a prefix of the fragment list, and a
fragment lands in `before` exactly when its start offset is `≤ cur`. -/

theorem splitParts_cons (cur pos : Nat) (p : List Char) (ps : List (List Char)) :
    splitParts cur pos (p :: ps) =
      if pos ≤ cur then
        (p :: (splitParts cur (pos + p.length) ps).1, (splitParts cur (pos + p.length) ps).2)
      else
        ((splitParts cur (pos + p.length) ps).1, p :: (splitParts cur (pos + p.length) ps).2) :=
  rfl

theorem splitParts_eq_of_lt (cur : Nat) :
    ∀ (ps : List (List Char)) (pos : Nat), cur < pos →
      splitParts cur pos ps = ([], ps) := by
  intro ps
  induction ps with
  | nil => intro pos h; simp [splitParts]
  | cons p tl ih =>
    intro pos h
    rw [splitParts_cons, if_neg (by omega), ih (pos + p.length) (by omega)]

theorem splitParts_append (cur : Nat) :
    ∀ (ps : List (List Char)) (pos : Nat),
      (splitParts cur pos ps).1 ++ (splitParts cur pos ps).2 = ps := by
  intro ps
  induction ps with
  | nil => intro pos; simp [splitParts]
  | cons p tl ih =>
    intro pos
    by_cases h : pos ≤ cur
    · rw [splitParts_cons, if_pos h]
      simpa using ih (pos + p.length)
    · rw [splitParts_cons, if_neg h, splitParts_eq_of_lt cur tl (pos + p.length) (by omega)]
      simp

theorem splitParts_start_iff (cur : Nat) :
    ∀ (ps : List (List Char)) (pos i : Nat), i < ps.length →
      (pos + ((ps.take i).flatten).length ≤ cur ↔ i < (splitParts cur pos ps).1.length) := by
  intro ps
  induction ps with
  | nil => intro pos i h; simp at h
  | cons p tl ih =>
    intro pos i h
    by_cases hp : pos ≤ cur
    · rw [splitParts_cons, if_pos hp]
      cases i with
      | zero => simpa using hp
      | succ j =>
        have hj : j < tl.length := by simpa using h
        have h2 := ih (pos + p.length) j hj
        simp only [List.take_succ_cons, List.flatten_cons, List.length_append,
          List.length_cons]
        constructor
        · intro hle
          have := h2.mp (by omega)
          omega
        · intro hlt
          have := h2.mpr (by omega)
          omega
    · rw [splitParts_cons, if_neg hp,
        splitParts_eq_of_lt cur tl (pos + p.length) (by omega)]
      constructor
      · intro hle
        have : ¬ pos + ((p :: tl).take i).flatten.length ≤ cur := by omega
        exact absurd hle this
      · intro hlt
        simp at hlt

end OCP

namespace OCP

/-! Corollaries of the partition lemmas used by the scan invariant. -/

theorem before_length_le (cur : Nat) (ps : List (List Char)) :
    (splitParts cur 0 ps).1.length ≤ ps.length := by
  have happ := congrArg List.length (splitParts_append cur ps 0)
  rw [List.length_append] at happ
  omega

theorem before_take (cur : Nat) (ps : List (List Char)) (i : Nat)
    (hi : i ≤ (splitParts cur 0 ps).1.length) :
    ps.take i = (splitParts cur 0 ps).1.take i := by
  conv_lhs => rw [← splitParts_append cur ps 0]
  exact List.take_append_of_le_length hi

theorem before_start_le (cur : Nat) (ps : List (List Char)) (i : Nat)
    (hi : i < (splitParts cur 0 ps).1.length) :
    ((((splitParts cur 0 ps).1).take i).flatten).length ≤ cur := by
  have hips : i < ps.length := lt_of_lt_of_le hi (before_length_le cur ps)
  have hiff := splitParts_start_iff cur ps 0 i hips
  have h := hiff.mpr hi
  rw [before_take cur ps i (le_of_lt hi)] at h
  omega

theorem before_after_flatten (cur : Nat) (ps : List (List Char)) :
    ((splitParts cur 0 ps).1).flatten ++ ((splitParts cur 0 ps).2).flatten = ps.flatten := by
  rw [← List.flatten_append, splitParts_append]

/-! Resolution-predicate lemmas. -/

theorem joinPath_ne_nil (d p : List Char) (hp : p ≠ []) : joinPath d p ≠ [] := by
  unfold joinPath
  split
  · exact hp
  · split
    · simp [hp]
    · simp

theorem search_path_some_ne_nil (fs : List Char → Bool) (p : List Char)
    (dirs : List (List Char)) (q : List Char) (hp : p ≠ [])
    (h : search_path fs p dirs = some q) : q ≠ [] := by
  unfold search_path at h
  split at h
  · simp at h
  · split at h
    · split at h
      · cases h; exact hp
      · simp at h
    · obtain ⟨d, hd, hq⟩ := List.exists_of_findSome?_eq_some h
      split at hq
      · cases hq; exact joinPath_ne_nil d p hp
      · simp at hq

theorem findSome?_eq_of_first {α β : Type} (f : α → Option β) :
    ∀ (l : List α) (k : Nat) (hk : k < l.length),
      (∀ j (hj : j < l.length), j < k → f (l.get ⟨j, hj⟩) = none) →
      (f (l.get ⟨k, hk⟩)).isSome →
      l.findSome? f = f (l.get ⟨k, hk⟩) := by
  intro l
  induction l with
  | nil => intro k hk; simp at hk
  | cons a tl ih =>
    intro k hk hnone hsome
    cases k with
    | zero =>
      obtain ⟨b, hb⟩ := Option.isSome_iff_exists.1 hsome
      simp only [List.get] at hb ⊢
      rw [List.findSome?_cons, hb]
    | succ j =>
      have ha : f a = none := hnone 0 (by simp) (Nat.succ_pos j)
      rw [List.findSome?_cons, ha]
      exact ih j (by simpa using hk)
        (fun m hm hmk => hnone (m + 1) (by simpa using hm) (by omega)) hsome

/-! Growth-loop lemmas: the grown candidate extends the anchor along
fragment boundaries, resolves unless it is the untested bare anchor, and is
at least as long as every resolving fragment-aligned extension. -/

theorem grow_nil (fs : List Char → Bool) (dirs : List (List Char)) (np ex : List Char) :
    grow fs dirs np ex [] = ex := rfl

theorem grow_cons (fs : List Char → Bool) (dirs : List (List Char)) (np ex p : List Char)
    (rest : List (List Char)) :
    grow fs dirs np ex (p :: rest) =
      if (search_path fs (np ++ p) dirs).isSome then grow fs dirs (np ++ p) (np ++ p) rest
      else grow fs dirs (np ++ p) ex rest := rfl

theorem grow_isSome_or_eq (fs : List Char → Bool) (dirs : List (List Char)) :
    ∀ (parts : List (List Char)) (np ex : List Char),
      (search_path fs (grow fs dirs np ex parts) dirs).isSome ∨ grow fs dirs np ex parts = ex := by
  intro parts
  induction parts with
  | nil => intro np ex; right; rfl
  | cons p rest ih =>
    intro np ex
    rw [grow_cons]
    by_cases h : (search_path fs (np ++ p) dirs).isSome
    · rw [if_pos h]
      rcases ih (np ++ p) (np ++ p) with hs | he
      · exact Or.inl hs
      · rw [he]; exact Or.inl h
    · rw [if_neg h]
      exact ih (np ++ p) ex

theorem grow_length_ge (fs : List Char → Bool) (dirs : List (List Char)) :
    ∀ (parts : List (List Char)) (np ex : List Char), ex.length ≤ np.length →
      ex.length ≤ (grow fs dirs np ex parts).length := by
  intro parts
  induction parts with
  | nil => intro np ex h; exact le_rfl
  | cons p rest ih =>
    intro np ex h
    rw [grow_cons]
    by_cases hs : (search_path fs (np ++ p) dirs).isSome
    · rw [if_pos hs]
      have := ih (np ++ p) (np ++ p) le_rfl
      rw [List.length_append] at this
      omega
    · rw [if_neg hs]
      exact ih (np ++ p) ex (by rw [List.length_append]; omega)

theorem grow_append_sub (fs : List Char → Bool) (dirs : List (List Char)) :
    ∀ (parts : List (List Char)) (np ex : List Char), (∃ t, ex ++ t = np) →
      ∃ t, grow fs dirs np ex parts ++ t = np ++ parts.flatten := by
  intro parts
  induction parts with
  | nil =>
    intro np ex ⟨t, ht⟩
    exact ⟨t, by simp [grow_nil, ht]⟩
  | cons p rest ih =>
    intro np ex ⟨t, ht⟩
    rw [grow_cons]
    by_cases hs : (search_path fs (np ++ p) dirs).isSome
    · rw [if_pos hs]
      obtain ⟨u, hu⟩ := ih (np ++ p) (np ++ p) ⟨[], by simp⟩
      exact ⟨u, by rw [hu]; simp [List.flatten_cons]⟩
    · rw [if_neg hs]
      obtain ⟨u, hu⟩ := ih (np ++ p) ex ⟨t ++ p, by rw [← List.append_assoc, ht]⟩
      exact ⟨u, by rw [hu]; simp [List.flatten_cons]⟩

theorem grow_ge_of_succ (fs : List Char → Bool) (dirs : List (List Char)) :
    ∀ (parts : List (List Char)) (np ex : List Char) (m : Nat), 1 ≤ m → m ≤ parts.length →
      (search_path fs (np ++ (parts.take m).flatten) dirs).isSome →
      np.length + ((parts.take m).flatten).length ≤ (grow fs dirs np ex parts).length := by
  intro parts
  induction parts with
  | nil =>
    intro np ex m h1 h2
    simp at h2
    omega
  | cons p rest ih =>
    intro np ex m h1 h2 hsome
    rw [grow_cons]
    cases m with
    | zero => omega
    | succ m' =>
      rw [List.take_succ_cons, List.flatten_cons] at hsome ⊢
      by_cases hm : m' = 0
      · subst hm
        simp only [List.take_zero, List.flatten_nil, List.append_nil] at hsome ⊢
        rw [if_pos hsome]
        have := grow_length_ge fs dirs rest (np ++ p) (np ++ p) le_rfl
        rw [List.length_append] at this
        omega
      · have hm1 : 1 ≤ m' := by omega
        have hm2 : m' ≤ rest.length := by simpa using h2
        rw [← List.append_assoc] at hsome
        by_cases hnp : (search_path fs (np ++ p) dirs).isSome
        · rw [if_pos hnp]
          have h3 := ih (np ++ p) (np ++ p) m' hm1 hm2 hsome
          rw [List.length_append] at h3
          rw [List.length_append]
          omega
        · rw [if_neg hnp]
          have h3 := ih (np ++ p) ex m' hm1 hm2 hsome
          rw [List.length_append] at h3
          rw [List.length_append]
          omega

end OCP

namespace OCP

/-! Scan lemmas: one step of the reverse anchor scan either keeps the state
or installs the grown candidate of anchor `i`, and then only under the four
conditions of the source (anchor accepted, re-test passed, cursor covered,
strictly longer than the current best). -/

theorem anchor_step_cases (fs : List Char → Bool) (dirs : List (List Char)) (cur : Nat)
    (before after : List (List Char)) (st : ScanState) (i : Nat) :
    anchor_step fs dirs cur before after st i = st ∨
    (anchor_step fs dirs cur before after st i =
        ⟨grow fs dirs (before.getD i []) (before.getD i []) (before.drop (i + 1) ++ after),
          ((before.take i).flatten).length,
          ((before.take i).flatten).length +
            (grow fs dirs (before.getD i []) (before.getD i [])
              (before.drop (i + 1) ++ after)).length⟩ ∧
      (st.path = [] ∨ (search_path fs (before.getD i []) dirs).isSome) ∧
      (st.path ≠ [] ∨
        (search_path fs
          (grow fs dirs (before.getD i []) (before.getD i []) (before.drop (i + 1) ++ after))
          dirs).isSome) ∧
      cur ≤ ((before.take i).flatten).length +
        (grow fs dirs (before.getD i []) (before.getD i [])
          (before.drop (i + 1) ++ after)).length ∧
      st.path.length <
        (grow fs dirs (before.getD i []) (before.getD i [])
          (before.drop (i + 1) ++ after)).length) := by
  simp only [anchor_step]
  by_cases h1 : st.path = [] ∨ (search_path fs (before.getD i []) dirs).isSome
  · rw [if_pos h1]
    by_cases h2 : st.path ≠ [] ∨
        (search_path fs
          (grow fs dirs (before.getD i []) (before.getD i []) (before.drop (i + 1) ++ after))
          dirs).isSome
    · rw [if_pos h2]
      by_cases h3 : cur ≤ ((before.take i).flatten).length +
          (grow fs dirs (before.getD i []) (before.getD i [])
            (before.drop (i + 1) ++ after)).length
      · rw [if_pos h3]
        by_cases h4 : st.path.length <
            (grow fs dirs (before.getD i []) (before.getD i [])
              (before.drop (i + 1) ++ after)).length
        · rw [if_pos h4]
          exact Or.inr ⟨rfl, h1, h2, h3, h4⟩
        · rw [if_neg h4]
          exact Or.inl rfl
      · rw [if_neg h3]
        exact Or.inl rfl
    · rw [if_neg h2]
      exact Or.inl rfl
  · rw [if_neg h1]
    exact Or.inl rfl

theorem take_flatten_mono (l : List (List Char)) (i j : Nat) (hij : i ≤ j) :
    ((l.take i).flatten).length ≤ ((l.take j).flatten).length := by
  have h1 : (l.take j).take i = l.take i := by
    rw [List.take_take, Nat.min_eq_left hij]
  have h2 : (((l.take j).take i).flatten).length + ((((l.take j).drop i)).flatten).length =
      ((l.take j).flatten).length := by
    rw [← List.length_append, ← List.flatten_append, List.take_append_drop]
  rw [h1] at h2
  omega

theorem anchor_step_Inv (fs : List Char → Bool) (dirs : List (List Char)) (text : List Char)
    (cur : Nat) (before after : List (List Char)) (st : ScanState) (i : Nat)
    (htext : before.flatten ++ after.flatten = text)
    (hstart : ∀ j, j < before.length → (((before.take j).flatten).length ≤ cur))
    (hi : i < before.length)
    (hInv : Inv fs dirs text cur st) :
    Inv fs dirs text cur (anchor_step fs dirs cur before after st i) := by
  rcases anchor_step_cases fs dirs cur before after st i with heq | ⟨heq, h1, h2, h3, h4⟩
  · rw [heq]; exact hInv
  · rw [heq]
    right
    dsimp only
    constructor
    · have hpos : 0 < (grow fs dirs (before.getD i []) (before.getD i [])
          (before.drop (i + 1) ++ after)).length := by omega
      exact List.length_pos.1 hpos
    refine ⟨hstart i hi, h3, rfl, ?_⟩
    have hpart : before.getD i [] = before[i] := by
      rw [List.getD_eq_getElem?_getD, List.getElem?_eq_getElem hi]
      rfl
    have hdropcons : before.drop i = before.getD i [] :: before.drop (i + 1) := by
      rw [hpart]
      exact List.drop_eq_getElem_cons hi
    obtain ⟨t, ht⟩ := grow_append_sub fs dirs (before.drop (i + 1) ++ after)
      (before.getD i []) (before.getD i []) ⟨[], by simp⟩
    have hflat : before.getD i [] ++ (before.drop (i + 1) ++ after).flatten =
        (before.drop i).flatten ++ after.flatten := by
      rw [hdropcons]
      simp [List.flatten_append, List.append_assoc]
    have hsplitb : before.flatten = (before.take i).flatten ++ (before.drop i).flatten := by
      rw [← List.flatten_append, List.take_append_drop]
    have htext_drop : text.drop (((before.take i).flatten).length) =
        (before.drop i).flatten ++ after.flatten := by
      rw [← htext, hsplitb, List.append_assoc, List.drop_left]
    have hdrop2 : text.drop (((before.take i).flatten).length) =
        grow fs dirs (before.getD i []) (before.getD i []) (before.drop (i + 1) ++ after) ++ t := by
      rw [htext_drop, ← hflat, ← ht]
    refine ⟨⟨t, hdrop2⟩, ?_, ?_⟩
    · have hlen1 := congrArg List.length hdrop2
      rw [List.length_drop, List.length_append] at hlen1
      have hlen2 := congrArg List.length htext
      rw [List.length_append] at hlen2
      have hlen3 := congrArg List.length hsplitb
      rw [List.length_append] at hlen3
      omega
    · by_cases hst : st.path = []
      · rcases h2 with h2a | h2b
        · exact absurd hst h2a
        · exact h2b
      · have hpart_some : (search_path fs (before.getD i []) dirs).isSome := by
          rcases h1 with h1a | h1b
          · exact absurd h1a hst
          · exact h1b
        rcases grow_isSome_or_eq fs dirs (before.drop (i + 1) ++ after)
          (before.getD i []) (before.getD i []) with hg | hg
        · exact hg
        · rw [hg]; exact hpart_some

theorem scan_Inv (fs : List Char → Bool) (dirs : List (List Char)) (text : List Char)
    (cur : Nat) (before after : List (List Char))
    (htext : before.flatten ++ after.flatten = text)
    (hstart : ∀ j, j < before.length → (((before.take j).flatten).length ≤ cur)) :
    ∀ (idxs : List Nat) (st : ScanState), (∀ i ∈ idxs, i < before.length) →
      Inv fs dirs text cur st →
      Inv fs dirs text cur (scan fs dirs cur before after idxs st) := by
  intro idxs
  induction idxs with
  | nil => intro st _ hI; exact hI
  | cons i rest ih =>
    intro st h hI
    simp only [scan]
    exact ih _ (fun j hj => h j (List.mem_cons_of_mem i hj))
      (anchor_step_Inv fs dirs text cur before after st i htext hstart
        (h i (List.mem_cons_self i rest)) hI)

theorem scan_append (fs : List Char → Bool) (dirs : List (List Char)) (cur : Nat)
    (before after : List (List Char)) (A B : List Nat) (st : ScanState) :
    scan fs dirs cur before after (A ++ B) st =
      scan fs dirs cur before after B (scan fs dirs cur before after A st) := by
  induction A generalizing st with
  | nil => rfl
  | cons a A ih => simp only [List.cons_append, scan]; exact ih _

theorem anchor_step_path_le (fs : List Char → Bool) (dirs : List (List Char)) (cur : Nat)
    (before after : List (List Char)) (st : ScanState) (i : Nat) :
    st.path.length ≤ (anchor_step fs dirs cur before after st i).path.length := by
  rcases anchor_step_cases fs dirs cur before after st i with heq | ⟨heq, _, _, _, h4⟩
  · rw [heq]
  · rw [heq]; exact le_of_lt h4

theorem scan_R (fs : List Char → Bool) (dirs : List (List Char)) (cur : Nat)
    (before after : List (List Char)) (L : Nat) :
    ∀ (idxs : List Nat) (st : ScanState),
      (∀ j ∈ idxs, L ≤ ((before.take j).flatten).length) →
      (st.path ≠ [] → L ≤ st.b) →
      ((scan fs dirs cur before after idxs st).path ≠ [] →
        L ≤ (scan fs dirs cur before after idxs st).b) := by
  intro idxs
  induction idxs with
  | nil => intro st _ hR; exact hR
  | cons i rest ih =>
    intro st h hR
    simp only [scan]
    refine ih _ (fun j hj => h j (List.mem_cons_of_mem i hj)) ?_
    rcases anchor_step_cases fs dirs cur before after st i with heq | ⟨heq, _, _, _, _⟩
    · rw [heq]; exact hR
    · rw [heq]
      intro _
      exact h i (List.mem_cons_self i rest)

theorem scan_P (fs : List Char → Bool) (dirs : List (List Char)) (cur : Nat)
    (before after : List (List Char)) (cLen L : Nat) :
    ∀ (idxs : List Nat) (st : ScanState),
      (cLen ≤ st.path.length ∧ (st.path.length = cLen → L ≤ st.b)) →
      (cLen ≤ (scan fs dirs cur before after idxs st).path.length ∧
        ((scan fs dirs cur before after idxs st).path.length = cLen →
          L ≤ (scan fs dirs cur before after idxs st).b)) := by
  intro idxs
  induction idxs with
  | nil => intro st hP; exact hP
  | cons i rest ih =>
    intro st hP
    simp only [scan]
    refine ih _ ?_
    rcases anchor_step_cases fs dirs cur before after st i with heq | ⟨heq, _, _, _, h4⟩
    · rw [heq]; exact hP
    · rw [heq]
      constructor
      · exact le_trans hP.1 (le_of_lt h4)
      · intro hlen
        exfalso
        have := hP.1
        simp only [hlen] at h4
        omega

theorem range_reverse_split (i n : Nat) (h : i < n) :
    (List.range n).reverse =
      (List.range' (i + 1) (n - (i + 1))).reverse ++ i :: (List.range i).reverse := by
  have h1 : List.range n = List.range (i + 1) ++ List.range' (i + 1) (n - (i + 1)) := by
    rw [List.range_eq_range' n, List.range_eq_range' (i + 1)]
    have := List.range'_append 0 (i + 1) (n - (i + 1)) 1
    simp only [Nat.one_mul, Nat.zero_add] at this
    rw [this]
    congr 1
    omega
  rw [h1, List.reverse_append, List.range_succ, List.reverse_append]
  simp

end OCP

namespace OCP

/-! Top-level characterization of `extract_path`. -/

theorem extract_path_eq (g : Grammar) (fs : List Char → Bool) (text : List Char) (cur : Nat)
    (dirs : List (List Char)) :
    extract_path g fs text cur dirs =
      if (scanOf g fs text cur dirs).path = [] then (none, none)
      else (search_path fs (scanOf g fs text cur dirs).path dirs,
        some ((scanOf g fs text cur dirs).b, (scanOf g fs text cur dirs).e)) := rfl

theorem scanOf_Inv (g : Grammar) (fs : List Char → Bool) (text : List Char) (cur : Nat)
    (dirs : List (List Char)) : Inv fs dirs text cur (scanOf g fs text cur dirs) := by
  have htext : ((splitParts cur 0 (file_parts g text)).1).flatten ++
      ((splitParts cur 0 (file_parts g text)).2).flatten = text := by
    rw [before_after_flatten, file_parts_flatten]
  have hstart := fun j hj => before_start_le cur (file_parts g text) j hj
  have hmem : ∀ i ∈ (List.range (splitParts cur 0 (file_parts g text)).1.length).reverse,
      i < (splitParts cur 0 (file_parts g text)).1.length := by
    intro i hi
    rw [List.mem_reverse] at hi
    exact List.mem_range.1 hi
  exact scan_Inv fs dirs text cur _ _ htext hstart _ _ hmem (Or.inl rfl)

theorem extract_path_spec (g : Grammar) (fs : List Char → Bool) (text : List Char) (cur : Nat)
    (dirs : List (List Char)) :
    extract_path g fs text cur dirs = (none, none) ∨
    ∃ p b e, extract_path g fs text cur dirs = (some p, some (b, e)) ∧
      p ≠ [] ∧ b ≤ cur ∧ cur ≤ e ∧ e ≤ text.length ∧
      (text.drop b).take (e - b) ≠ [] ∧
      search_path fs ((text.drop b).take (e - b)) dirs = some p := by
  have hInv := scanOf_Inv g fs text cur dirs
  rw [extract_path_eq]
  by_cases hp : (scanOf g fs text cur dirs).path = []
  · rw [if_pos hp]; exact Or.inl rfl
  · rw [if_neg hp]
    rcases hInv with hinit | ⟨hne, hb, hc, he, ⟨t, ht⟩, hel, hsome⟩
    · exfalso; exact hp (by rw [hinit])
    right
    obtain ⟨p, hps⟩ := Option.isSome_iff_exists.1 hsome
    have hediff : (scanOf g fs text cur dirs).e - (scanOf g fs text cur dirs).b =
        (scanOf g fs text cur dirs).path.length := by omega
    have htake : ((text.drop (scanOf g fs text cur dirs).b).take
        ((scanOf g fs text cur dirs).e - (scanOf g fs text cur dirs).b)) =
        (scanOf g fs text cur dirs).path := by
      rw [hediff, ht, List.take_left]
    refine ⟨p, _, _, by rw [hps], ?_, hb, hc, hel, ?_, ?_⟩
    · exact search_path_some_ne_nil fs _ dirs p hne hps
    · rw [htake]; exact hne
    · rw [htake]; exact hps

end OCP

namespace OCP

/-- C1: for every text, cursor offset `cur` with `0 ≤ cur ≤ len(text)` and
directory tuple, a successful extraction's span `(b, e)` satisfies
`b ≤ cur ≤ e`. -/
theorem C1_span_containment (g : Grammar) (fs : List Char → Bool) (text : List Char)
    (cur : Nat) (dirs : List (List Char)) (b e : Nat)
    (hcur : cur ≤ text.length)
    (h : (extract_path g fs text cur dirs).2 = some (b, e)) :
    b ≤ cur ∧ cur ≤ e := by
  rcases extract_path_spec g fs text cur dirs with hnone | ⟨p, b', e', heq, _, hb, hc, _, _, _⟩
  · rw [hnone] at h; simp at h
  · rw [heq] at h
    simp only [Option.some.injEq, Prod.mk.injEq] at h
    obtain ⟨hb', he'⟩ := h
    subst hb'; subst he'
    exact ⟨hb, hc⟩

theorem C1_witness : (0 : Nat) ≤ 1 ∧ (1 : Nat) ≤ 2 :=
  C1_span_containment Grammar.unix fsSlashA ['/', 'a'] 1 [] 0 2 (by decide) (by rfl)

/-- C3: whenever `extract_path` returns a span, the matched text (the slice
of `text` covered by the span) is verified by `search_path` at the moment of
return, and the returned path is exactly that verification's result. -/
theorem C3_result_verified (g : Grammar) (fs : List Char → Bool) (text : List Char)
    (cur : Nat) (dirs : List (List Char)) (b e : Nat)
    (h : (extract_path g fs text cur dirs).2 = some (b, e)) :
    ∃ p, (extract_path g fs text cur dirs).1 = some p ∧
      search_path fs ((text.drop b).take (e - b)) dirs = some p := by
  rcases extract_path_spec g fs text cur dirs with hnone | ⟨p, b', e', heq, _, _, _, _, _, hsp⟩
  · rw [hnone] at h; simp at h
  · rw [heq] at h
    simp only [Option.some.injEq, Prod.mk.injEq] at h
    obtain ⟨hb', he'⟩ := h
    subst hb'; subst he'
    exact ⟨p, by rw [heq], hsp⟩

theorem C3_witness :
    ∃ p, (extract_path Grammar.unix fsSlashA ['/', 'a'] 1 []).1 = some p ∧
      search_path fsSlashA (((['/', 'a'] : List Char).drop 0).take (2 - 0)) [] = some p :=
  C3_result_verified Grammar.unix fsSlashA ['/', 'a'] 1 [] 0 2 (by rfl)

/-- C10: `extract_path` returns either `(none, none)` or a well-formed
result: a non-empty path, a span `0 ≤ b ≤ e ≤ len(text)` (so the caller's
slicing of `text` at `e` is in bounds), where the covered slice
`text[b:e]` is exactly the fragment-aligned candidate whose resolution is
the returned path. -/
theorem C10_result_wellformed (g : Grammar) (fs : List Char → Bool) (text : List Char)
    (cur : Nat) (dirs : List (List Char))
    (hcur : cur ≤ text.length)
    (h : extract_path g fs text cur dirs ≠ (none, none)) :
    ∃ p b e, extract_path g fs text cur dirs = (some p, some (b, e)) ∧
      p ≠ [] ∧ b ≤ e ∧ e ≤ text.length ∧
      (text.drop b).take (e - b) ≠ [] ∧
      search_path fs ((text.drop b).take (e - b)) dirs = some p := by
  rcases extract_path_spec g fs text cur dirs with hnone | ⟨p, b, e, heq, hp, hb, hc, hel, hcand, hsp⟩
  · exact absurd hnone h
  · exact ⟨p, b, e, heq, hp, le_trans hb hc, hel, hcand, hsp⟩

theorem C10_witness :
    ∃ p b e, extract_path Grammar.unix fsSlashA ['/', 'a'] 1 [] = (some p, some (b, e)) ∧
      p ≠ [] ∧ b ≤ e ∧ e ≤ (['/', 'a'] : List Char).length ∧
      ((['/', 'a'] : List Char).drop b).take (e - b) ≠ [] ∧
      search_path fsSlashA (((['/', 'a'] : List Char).drop b).take (e - b)) [] = some p :=
  C10_result_wellformed Grammar.unix fsSlashA ['/', 'a'] 1 [] (by decide) (by decide)

/-- C4: under either grammar the tokenizer's fragments are non-overlapping,
in left-to-right order, and concatenate back to the input text; the
before/after partition preserves this (before ++ after is the fragment
list, and their concatenations reproduce the text), and the i-th fragment
lands in `before` exactly when its start offset is `≤ cur`. -/
theorem C4_tokenizer_roundtrip (g : Grammar) (text : List Char) (cur : Nat) :
    (file_parts g text).flatten = text ∧
    (splitParts cur 0 (file_parts g text)).1 ++ (splitParts cur 0 (file_parts g text)).2 =
      file_parts g text ∧
    ((splitParts cur 0 (file_parts g text)).1).flatten ++
      ((splitParts cur 0 (file_parts g text)).2).flatten = text ∧
    ∀ i, i < (file_parts g text).length →
      ((((file_parts g text).take i).flatten).length ≤ cur ↔
        i < (splitParts cur 0 (file_parts g text)).1.length) := by
  refine ⟨file_parts_flatten g text, splitParts_append cur _ 0, ?_, ?_⟩
  · rw [before_after_flatten, file_parts_flatten]
  · intro i hi
    have := splitParts_start_iff cur (file_parts g text) 0 i hi
    simpa using this

theorem C4_witness :
    (file_parts Grammar.unix ['a', '/', 'b']).flatten = ['a', '/', 'b'] ∧
    ((((file_parts Grammar.unix ['a', '/', 'b']).take 1).flatten).length ≤ 1 ↔
      1 < (splitParts 1 0 (file_parts Grammar.unix ['a', '/', 'b'])).1.length) :=
  ⟨(C4_tokenizer_roundtrip Grammar.unix ['a', '/', 'b'] 1).1,
    (C4_tokenizer_roundtrip Grammar.unix ['a', '/', 'b'] 1).2.2.2 1 (by decide)⟩

/-- C5: a bare `.` or `..` never resolves (for every filesystem oracle and
directory tuple, so even when a filesystem entry of the joined name
exists), and extraction on input `.` with the cursor after the dot yields
`(None, None)` under both grammars. -/
theorem C5_dot_exclusion (fs : List Char → Bool) (dirs : List (List Char)) :
    search_path fs ['.'] dirs = none ∧ search_path fs ['.', '.'] dirs = none ∧
    ∀ g : Grammar, extract_path g fs ['.'] 1 dirs = (none, none) := by
  refine ⟨rfl, rfl, ?_⟩
  intro g
  cases g <;> rfl

end OCP

namespace OCP

/-- C6: an absolute candidate resolves to itself iff it exists (the
directory list is not consulted); a relative candidate is joined with each
directory in the given order and the first existing join wins, `none` when
no join exists. -/
theorem C6_resolution_order (fs : List Char → Bool) (path : List Char)
    (dirs : List (List Char)) :
    (isabs path = true →
      search_path fs path dirs = if fs path then some path else none) ∧
    (isabs path = false → path ≠ ['.'] → path ≠ ['.', '.'] →
      ((∀ d ∈ dirs, fs (joinPath d path) = false) → search_path fs path dirs = none) ∧
      (∀ k (hk : k < dirs.length), fs (joinPath (dirs.get ⟨k, hk⟩) path) = true →
        (∀ j (hj : j < dirs.length), j < k → fs (joinPath (dirs.get ⟨j, hj⟩) path) = false) →
        search_path fs path dirs = some (joinPath (dirs.get ⟨k, hk⟩) path))) := by
  constructor
  · intro habs
    have hdot : ¬(path = ['.'] ∨ path = ['.', '.']) := by
      rintro (rfl | rfl) <;> simp [isabs] at habs
    unfold search_path
    rw [if_neg hdot, if_pos habs]
  · intro habs h1 h2
    have hdot : ¬(path = ['.'] ∨ path = ['.', '.']) := by
      rintro (rfl | rfl)
      · exact h1 rfl
      · exact h2 rfl
    constructor
    · intro hnone
      unfold search_path
      rw [if_neg hdot, if_neg (by simp [habs])]
      rw [List.findSome?_eq_none_iff]
      intro d hd
      simp [hnone d hd]
    · intro k hk hfk hnone
      unfold search_path
      rw [if_neg hdot, if_neg (by simp [habs])]
      have hn : ∀ j (hj : j < dirs.length), j < k →
          (fun d => if fs (joinPath d path) then some (joinPath d path) else none)
            (dirs.get ⟨j, hj⟩) = none := by
        intro j hj hjk
        show (if fs (joinPath (dirs.get ⟨j, hj⟩) path) then
          some (joinPath (dirs.get ⟨j, hj⟩) path) else none) = none
        rw [hnone j hj hjk]
        simp
      have hs : ((fun d => if fs (joinPath d path) then some (joinPath d path) else none)
          (dirs.get ⟨k, hk⟩)).isSome := by
        show (if fs (joinPath (dirs.get ⟨k, hk⟩) path) then
          some (joinPath (dirs.get ⟨k, hk⟩) path) else none).isSome
        rw [hfk]
        simp
      rw [findSome?_eq_of_first _ dirs k hk hn hs]
      show (if fs (joinPath (dirs.get ⟨k, hk⟩) path) then
        some (joinPath (dirs.get ⟨k, hk⟩) path) else none) = _
      rw [hfk]
      simp

theorem C6_witness :
    search_path fsPrecedence ("file2.txt".toList)
      ["/root".toList, "/root/dir2/sub".toList] = some ("/root/file2.txt".toList) := by
  have h := (C6_resolution_order fsPrecedence ("file2.txt".toList)
      ["/root".toList, "/root/dir2/sub".toList]).2 (by decide) (by decide) (by decide)
  have h2 := h.2 0 (by decide) (by decide) (fun j hj hj0 => absurd hj0 (Nat.not_lt_zero j))
  rw [h2]
  decide

/-- C7: `match_patterns` tries the configured patterns in order and returns
the group dictionary of the first matching pattern (a named group that did
not participate in the match is mapped to an absent value by the pattern's
`groupdict`, not an error), and the empty mapping when no pattern matches
or none are configured; instantiated on the spec's `:42:10` / `:42`
metadata examples. -/
theorem C7_first_pattern_wins :
    (∀ (patterns : List (List Char → Option GroupDict)) (text : List Char),
      match_patterns patterns text = ((patterns.findSome? (fun p => p text)).getD [])) ∧
    match_patterns [lineColPattern] (":42:10".toList) =
      [("line".toList, some ("42".toList)), ("col".toList, some ("10".toList))] ∧
    match_patterns [lineColPattern] (":42".toList) =
      [("line".toList, some ("42".toList)), ("col".toList, none)] ∧
    match_patterns ([] : List (List Char → Option GroupDict)) (":42".toList) = [] := by
  refine ⟨?_, by decide, by decide, rfl⟩
  intro patterns text
  induction patterns with
  | nil => rfl
  | cons p ps ih =>
    simp only [match_patterns, List.findSome?_cons]
    cases hp : p text with
    | some gd => simp
    | none => simpa using ih

end OCP

namespace OCP

theorem anchor_step_of_conditions (fs : List Char → Bool) (dirs : List (List Char)) (cur : Nat)
    (before after : List (List Char)) (st : ScanState) (i : Nat)
    (h1 : st.path = [] ∨ (search_path fs (before.getD i []) dirs).isSome)
    (h2 : st.path ≠ [] ∨
      (search_path fs
        (grow fs dirs (before.getD i []) (before.getD i []) (before.drop (i + 1) ++ after))
        dirs).isSome)
    (h3 : cur ≤ ((before.take i).flatten).length +
      (grow fs dirs (before.getD i []) (before.getD i [])
        (before.drop (i + 1) ++ after)).length) :
    anchor_step fs dirs cur before after st i =
      if st.path.length <
          (grow fs dirs (before.getD i []) (before.getD i [])
            (before.drop (i + 1) ++ after)).length then
        ⟨grow fs dirs (before.getD i []) (before.getD i []) (before.drop (i + 1) ++ after),
          ((before.take i).flatten).length,
          ((before.take i).flatten).length +
            (grow fs dirs (before.getD i []) (before.getD i [])
              (before.drop (i + 1) ++ after)).length⟩
      else st := by
  simp only [anchor_step]
  rw [if_pos h1, if_pos h2, if_pos h3]

end OCP

namespace OCP

/-- C2 (amended): if a fragment-aligned candidate `c` anchored at before-
fragment `i` resolves, covers the cursor, and its anchor fragment alone
resolves under `search_path` (so the reverse scan is guaranteed to try this
anchor), then the extraction result is a candidate at least as long as `c`;
and when the result has exactly the length of `c`, its anchor lies at least
as close to the cursor as `i` (span start `≥` the start of anchor `i`),
reflecting the first-found-wins tie-break of the reverse scan.  The
original unconditional claim is refuted by `C2_counterexample`. -/
theorem C2_greedy_longest (g : Grammar) (fs : List Char → Bool) (text : List Char)
    (cur : Nat) (dirs : List (List Char)) (i n : Nat) (c : List Char)
    (hi : i < (splitParts cur 0 (file_parts g text)).1.length)
    (hanchor : (search_path fs ((splitParts cur 0 (file_parts g text)).1.getD i []) dirs).isSome)
    (hn : 1 ≤ n)
    (hnle : n ≤ ((splitParts cur 0 (file_parts g text)).1.drop i ++
        (splitParts cur 0 (file_parts g text)).2).length)
    (hc : c = (((splitParts cur 0 (file_parts g text)).1.drop i ++
        (splitParts cur 0 (file_parts g text)).2).take n).flatten)
    (hres : (search_path fs c dirs).isSome)
    (hcov : cur ≤ ((((splitParts cur 0 (file_parts g text)).1.take i).flatten)).length +
        c.length) :
    ∃ p b e, extract_path g fs text cur dirs = (some p, some (b, e)) ∧
      c.length ≤ e - b ∧
      (e - b = c.length →
        ((((splitParts cur 0 (file_parts g text)).1.take i).flatten)).length ≤ b) := by
  set B := (splitParts cur 0 (file_parts g text)).1 with hB
  set A := (splitParts cur 0 (file_parts g text)).2 with hA
  set part := B.getD i [] with hpartdef
  set rest := B.drop (i + 1) ++ A with hrestdef
  set existing := grow fs dirs part part rest with hexist
  set L := ((B.take i).flatten).length with hLdef
  -- basic facts about the anchor fragment and the candidate shape
  have hpartget : part = B[i] := by
    rw [hpartdef, List.getD_eq_getElem?_getD, List.getElem?_eq_getElem hi]
    rfl
  have hdropcons : B.drop i = part :: B.drop (i + 1) := by
    rw [hpartget]
    exact List.drop_eq_getElem_cons hi
  have hconscat : B.drop i ++ A = part :: rest := by
    rw [hdropcons, hrestdef]
    simp
  obtain ⟨m, rfl⟩ : ∃ m, n = m + 1 := ⟨n - 1, by omega⟩
  have hcform : c = part ++ (rest.take m).flatten := by
    rw [hc, hconscat, List.take_succ_cons, List.flatten_cons]
  have hpartmem : part ∈ file_parts g text := by
    have hmem : part ∈ B := by
      rw [hpartget]
      exact List.getElem_mem hi
    rw [← splitParts_append cur (file_parts g text) 0]
    exact List.mem_append_left _ hmem
  have hpartne : part ≠ [] := file_parts_ne_nil g text part hpartmem
  have hpartpos : 0 < part.length := List.length_pos.2 hpartne
  have hclen : part.length ≤ c.length := by
    rw [hcform, List.length_append]
    omega
  have hcpos : 1 ≤ c.length := by omega
  -- the grown candidate of anchor i is at least as long as c
  have hce : c.length ≤ existing.length := by
    by_cases hm : m = 0
    · subst hm
      have hcp : c = part := by rw [hcform]; simp
      rw [hcp]
      exact grow_length_ge fs dirs rest part part le_rfl
    · have hm1 : 1 ≤ m := by omega
      have hm2 : m ≤ rest.length := by
        have hlc := congrArg List.length hconscat
        rw [List.length_append, List.length_cons] at hlc
        rw [List.length_append] at hnle
        omega
      have hres' : (search_path fs (part ++ (rest.take m).flatten) dirs).isSome := by
        rw [← hcform]; exact hres
      have hgrow := grow_ge_of_succ fs dirs rest part part m hm1 hm2 hres'
      rw [hcform, List.length_append]
      exact hgrow
  -- split the reverse index scan at anchor i
  have hsplit := range_reverse_split i B.length hi
  have hscan : scanOf g fs text cur dirs =
      scan fs dirs cur B A ((List.range i).reverse)
        (anchor_step fs dirs cur B A
          (scan fs dirs cur B A ((List.range' (i + 1) (B.length - (i + 1))).reverse) ⟨[], 0, 0⟩)
          i) := by
    simp only [scanOf]
    rw [← hB, ← hA, hsplit, scan_append]
    simp only [scan]
  set st1 := scan fs dirs cur B A ((List.range' (i + 1) (B.length - (i + 1))).reverse)
    ⟨[], 0, 0⟩ with hst1
  have hR1 : st1.path ≠ [] → L ≤ st1.b := by
    apply scan_R fs dirs cur B A L _ ⟨[], 0, 0⟩
    · intro j hj
      have hjge : i + 1 ≤ j := by
        rw [List.mem_reverse] at hj
        exact (List.mem_range'_1.1 hj).1
      exact take_flatten_mono B i j (by omega)
    · intro h; exact absurd rfl h
  have hcond1 : st1.path = [] ∨ (search_path fs part dirs).isSome := Or.inr hanchor
  have hcond2 : st1.path ≠ [] ∨ (search_path fs existing dirs).isSome := by
    right
    rcases grow_isSome_or_eq fs dirs rest part part with hg | hg
    · rw [hexist]; exact hg
    · rw [hexist, hg]; exact hanchor
  have hcond3 : cur ≤ L + existing.length := by omega
  have hstep := anchor_step_of_conditions fs dirs cur B A st1 i hcond1 hcond2 hcond3
  have hP2 : c.length ≤ (anchor_step fs dirs cur B A st1 i).path.length ∧
      ((anchor_step fs dirs cur B A st1 i).path.length = c.length →
        L ≤ (anchor_step fs dirs cur B A st1 i).b) := by
    rw [hstep]
    by_cases h4 : st1.path.length < existing.length
    · rw [if_pos h4]
      exact ⟨hce, fun _ => le_rfl⟩
    · rw [if_neg h4]
      have hlen : c.length ≤ st1.path.length := by omega
      refine ⟨hlen, fun hEq => ?_⟩
      have hne : st1.path ≠ [] := by
        intro hnil
        rw [hnil] at hEq
        simp at hEq
        omega
      exact hR1 hne
  have hPfin := scan_P fs dirs cur B A c.length L ((List.range i).reverse) _ hP2
  rw [← hscan] at hPfin
  have hne : (scanOf g fs text cur dirs).path ≠ [] := by
    have h1 := hPfin.1
    have h2 : 0 < (scanOf g fs text cur dirs).path.length := by omega
    exact List.length_pos.1 h2
  have hInv := scanOf_Inv g fs text cur dirs
  rcases hInv with hinit | ⟨hne2, hb, hcr, he, _, _, hsome⟩
  · exact absurd (by rw [hinit]) hne
  obtain ⟨p, hps⟩ := Option.isSome_iff_exists.1 hsome
  refine ⟨p, (scanOf g fs text cur dirs).b, (scanOf g fs text cur dirs).e, ?_, ?_, ?_⟩
  · rw [extract_path_eq, if_neg hne, hps]
  · have := hPfin.1
    omega
  · intro hEq
    exact hPfin.2 (by omega)

end OCP

namespace OCP

/-- C2 counterexample: on text `file1.txt` with the cursor at offset 8 and
one base directory `/d`, both `txt` (anchored at the third fragment) and
`file1.txt` (anchored at the first fragment) are fragment-aligned
candidates that resolve (to `/d/txt` and `/d/file1.txt`) and cover the
cursor, yet `extract_path` returns the three-character candidate `txt`
(span `(6, 9)`), not the nine-character one: the bootstrap anchor at `txt`
fixes a best path first, and the anchor `file1` is then skipped because it
does not resolve standalone. -/
theorem C2_counterexample :
    (search_path fsTwoFiles ("txt".toList) ["/d".toList]).isSome = true ∧
    (search_path fsTwoFiles ("file1.txt".toList) ["/d".toList]).isSome = true ∧
    ("txt".toList =
      ((((splitParts 8 0 (file_parts Grammar.unix ("file1.txt".toList))).1.drop 2 ++
        (splitParts 8 0 (file_parts Grammar.unix ("file1.txt".toList))).2).take 1).flatten)) ∧
    ("file1.txt".toList =
      ((((splitParts 8 0 (file_parts Grammar.unix ("file1.txt".toList))).1.drop 0 ++
        (splitParts 8 0 (file_parts Grammar.unix ("file1.txt".toList))).2).take 3).flatten)) ∧
    6 ≤ 8 ∧ 8 ≤ 9 ∧ 0 ≤ 8 ∧
    extract_path Grammar.unix fsTwoFiles ("file1.txt".toList) 8 ["/d".toList] =
      (some ("/d/txt".toList), some (6, 9)) ∧
    9 - 6 < ("file1.txt".toList).length := by
  decide

theorem C2_witness :
    ∃ p b e, extract_path Grammar.unix fsSlashA ['a'] 1 [['/']] = (some p, some (b, e)) ∧
      (['a'] : List Char).length ≤ e - b ∧
      (e - b = (['a'] : List Char).length →
        ((((splitParts 1 0 (file_parts Grammar.unix ['a'])).1.take 0).flatten)).length ≤ b) :=
  C2_greedy_longest Grammar.unix fsSlashA ['a'] 1 [['/']] 0 1 ['a']
    (by decide) (by decide) (by decide) (by decide) (by decide) (by decide) (by decide)

/-! Memoization-layer lemmas (`functools.lru_cache`). -/

theorem assocFind_mem {α β : Type} [DecidableEq α] (k : α) :
    ∀ (c : List (α × β)) (v : β), assocFind k c = some v → (k, v) ∈ c := by
  intro c
  induction c with
  | nil => intro v h; simp [assocFind] at h
  | cons kv rest ih =>
    intro v h
    simp only [assocFind] at h
    by_cases hk : kv.1 = k
    · rw [if_pos hk] at h
      injection h with h2
      subst h2
      rw [← hk]
      exact List.mem_cons_self kv rest
    · rw [if_neg hk] at h
      exact List.mem_cons_of_mem kv (ih v h)

theorem assocErase_subset {α β : Type} [DecidableEq α] (k : α) :
    ∀ (c : List (α × β)) (x : α × β), x ∈ assocErase k c → x ∈ c := by
  intro c
  induction c with
  | nil => intro x h; simp [assocErase] at h
  | cons kv rest ih =>
    intro x h
    simp only [assocErase] at h
    by_cases hk : kv.1 = k
    · rw [if_pos hk] at h
      exact List.mem_cons_of_mem kv h
    · rw [if_neg hk] at h
      rcases List.mem_cons.1 h with rfl | h2
      · exact List.mem_cons_self x rest
      · exact List.mem_cons_of_mem kv (ih x h2)

theorem assocErase_length {α β : Type} [DecidableEq α] (k : α) :
    ∀ (c : List (α × β)) (v : β), assocFind k c = some v →
      (assocErase k c).length + 1 = c.length := by
  intro c
  induction c with
  | nil => intro v h; simp [assocFind] at h
  | cons kv rest ih =>
    intro v h
    simp only [assocFind] at h
    simp only [assocErase]
    by_cases hk : kv.1 = k
    · rw [if_pos hk]
      simp
    · rw [if_neg hk] at h ⊢
      simp only [List.length_cons]
      rw [ih v h]

theorem lru_consistent {α β : Type} [DecidableEq α] (f : α → β) (cap : Nat)
    (c : List (α × β)) (k : α) (hc : cacheConsistent f c) :
    (lruGet f cap c k).1 = f k ∧ cacheConsistent f (lruGet f cap c k).2 := by
  cases hf : assocFind k c with
  | some v =>
    have hv : v = f k := hc (k, v) (assocFind_mem k c v hf)
    simp only [lruGet, hf]
    refine ⟨hv, ?_⟩
    intro kv hkv
    rcases List.mem_cons.1 hkv with rfl | hkv2
    · exact hv
    · exact hc kv (assocErase_subset k c kv hkv2)
  | none =>
    simp only [lruGet, hf]
    refine ⟨trivial, ?_⟩
    intro kv hkv
    rcases List.mem_cons.1 (List.take_subset _ _ hkv) with rfl | h2
    · rfl
    · exact hc kv h2

/-- C8: extraction is deterministic in `(text, cur, dirs)` for a fixed
filesystem oracle, and the memoization layer is transparent: from any
consistent cache, the memoized call returns exactly the unmemoized
`extract_path` value, keeps the cache consistent, and a second call with
the identical triple returns the identical result. -/
theorem C8_memoization_transparent (g : Grammar) (fs : List Char → Bool)
    (c : List ((List Char × Nat × List (List Char)) × (Option (List Char) × Option (Nat × Nat))))
    (hc : cacheConsistent (extractKeyed g fs) c) (k : List Char × Nat × List (List Char)) :
    (lruGet (extractKeyed g fs) 128 c k).1 = extract_path g fs k.1 k.2.1 k.2.2 ∧
    cacheConsistent (extractKeyed g fs) (lruGet (extractKeyed g fs) 128 c k).2 ∧
    (lruGet (extractKeyed g fs) 128 ((lruGet (extractKeyed g fs) 128 c k).2) k).1 =
      extract_path g fs k.1 k.2.1 k.2.2 := by
  have h1 := lru_consistent (extractKeyed g fs) 128 c k hc
  have h2 := lru_consistent (extractKeyed g fs) 128 (lruGet (extractKeyed g fs) 128 c k).2 k h1.2
  exact ⟨h1.1, h1.2, h2.1⟩

theorem C8_witness :
    (lruGet (extractKeyed Grammar.unix fsEmpty) 128 [] (['a'], 0, [])).1 =
      extract_path Grammar.unix fsEmpty ['a'] 0 [] ∧
    cacheConsistent (extractKeyed Grammar.unix fsEmpty)
      (lruGet (extractKeyed Grammar.unix fsEmpty) 128 [] (['a'], 0, [])).2 ∧
    (lruGet (extractKeyed Grammar.unix fsEmpty) 128
      (lruGet (extractKeyed Grammar.unix fsEmpty) 128 [] (['a'], 0, [])).2 (['a'], 0, [])).1 =
      extract_path Grammar.unix fsEmpty ['a'] 0 [] :=
  C8_memoization_transparent Grammar.unix fsEmpty []
    (fun kv h => absurd h (List.not_mem_nil kv)) (['a'], 0, [])

/-- C9 (amended): the `functools.lru_cache()` memoization cache of
`extract_path` is a bounded LRU cache with the default capacity 128, not an
unbounded one: it never exceeds 128 entries, and after each call the
queried key is cached; an entry can be evicted (least-recently-used first)
once the cache is at capacity — see `C9_counterexample`. -/
theorem C9_lru_bounded (g : Grammar) (fs : List Char → Bool)
    (c : List ((List Char × Nat × List (List Char)) × (Option (List Char) × Option (Nat × Nat))))
    (k : List Char × Nat × List (List Char)) (hlen : c.length ≤ 128) :
    ((lruGet (extractKeyed g fs) 128 c k).2).length ≤ 128 ∧
    assocFind k ((lruGet (extractKeyed g fs) 128 c k).2) =
      some ((lruGet (extractKeyed g fs) 128 c k).1) := by
  cases hf : assocFind k c with
  | some v =>
    simp only [lruGet, hf]
    constructor
    · have := assocErase_length k c v hf
      simp only [List.length_cons]
      omega
    · simp [assocFind]
  | none =>
    simp only [lruGet, hf]
    constructor
    · simpa using List.length_take_le 128 _
    · have h128 : (128 : Nat) = 127 + 1 := rfl
      rw [h128, List.take_succ_cons]
      simp [assocFind]

theorem C9_witness :
    ((lruGet (extractKeyed Grammar.unix fsEmpty) 128 [] (['a'], 0, [])).2).length ≤ 128 ∧
    assocFind (['a'], 0, ([] : List (List Char)))
      ((lruGet (extractKeyed Grammar.unix fsEmpty) 128 [] (['a'], 0, [])).2) =
      some ((lruGet (extractKeyed Grammar.unix fsEmpty) 128 [] (['a'], 0, [])).1) :=
  C9_lru_bounded Grammar.unix fsEmpty [] (['a'], 0, []) (by decide)

set_option maxRecDepth 100000 in
/-- C9 counterexample: with the code's default capacity of 128, after the
first query the entry for key `(['a'], 0, ())` is cached, but after 128
further distinct queries it has been evicted — the cache does not retain
every computed entry for the process lifetime. -/
theorem C9_counterexample :
    assocFind ((['a'] : List Char), 0, ([] : List (List Char)))
      (lruRun (extractKeyed Grammar.unix fsEmpty) 128
        [((['a'] : List Char), 0, ([] : List (List Char)))] []) =
      some (extract_path Grammar.unix fsEmpty ['a'] 0 []) ∧
    assocFind ((['a'] : List Char), 0, ([] : List (List Char)))
      (lruRun (extractKeyed Grammar.unix fsEmpty) 128
        ((List.range 129).map (fun i => ((['a'] : List Char), i, ([] : List (List Char))))) []) =
      none := by
  constructor
  · rfl
  · rfl

end OCP
